import Mathlib

/-!
# Verification of the weekday invoice-date generator (`src/invoiceDating.py`)

Shallow embedding conventions:

* A calendar `date` is modelled as a natural number: the number of days since a
  fixed epoch that falls on a Monday.  Python's `date.weekday()` (0 = Monday,
  …, 6 = Sunday) advances by one modulo 7 per calendar day, so in the model
  `weekday d = d % 7`, and `d` is a weekday (Mon–Fri) exactly when `d % 7 < 5`.
  `d + timedelta(days=n)` is `d + n`.
* Python's `raise ValueError(msg)` is modelled with `Except String`; a normal
  return is `.ok`, a raise is `.error msg`.  A raise before any work means no
  partial result, which the `Except` value captures exactly.
* Randomness is modelled possibilistically.  `random.sample(range(m), k)` is an
  oracle `sample : Nat → Nat → List Nat`; its documented contract (`k` distinct
  values drawn from `range(m)`) is the hypothesis `ValidSample`.
  `random.choices(population, weights, k=1)[0]` is an oracle
  `pick : List Nat → Nat`; since every weight produced by `_bell_weights` is a
  strictly positive float (`exp(-0.5*x^2) > 0`, plus the explicit
  zero-avoidance shift), `random.choices` can return any member of the
  population, and the only guarantee it gives is membership: `ValidPick`.
  Theorems quantify over all valid oracles, so they hold for every possible
  random draw.  The float values of `_bell_weights` only shape probabilities
  and are absorbed into the oracle; no claim depends on them.
* `while` loops are translated to structurally recursive functions: the
  extras-allocation loop recurses on the (strictly decreasing) `extras`
  counter, and the two date-scanning loops recurse on an explicit iteration
  bound that matches the loop's exit condition.
* The Excel side of `apply_invoice_and_expiration_dates` (COM automation,
  file-existence check, workbook open/save/close, printing) is I/O and is
  abstracted away: the model returns the list of
  (invoice row, invoice date, expiration date) writes the function would
  perform, in order.
-/

/-- Model of `_weekdays_in_range`'s `while cur <= end:` loop body.  `fuel` is
the number of remaining days to inspect (`end + 1 - cur`), so the recursion
stops exactly when `cur > end`. -/
def weekdaysInRangeGo : Nat → Nat → List Nat
  | 0, _ => []
  | fuel + 1, cur => (if cur % 7 < 5 then [cur] else []) ++ weekdaysInRangeGo fuel (cur + 1)

/-- `_weekdays_in_range(start, end)`: all days `d` with `start ≤ d ≤ end` and
`d.weekday() < 5`, in ascending order. -/
def _weekdays_in_range (start : Nat) (end_ : Nat) : List Nat :=
  weekdaysInRangeGo (end_ + 1 - start) start

/-- Model of `_adjust_forward_to_weekday`'s `while d.weekday() >= 5: d += 1`
loop.  The loop body can run at most twice (from Saturday or Sunday), so any
fuel ≥ 2 makes the model total; we use 7, one full week. -/
def adjustForwardGo : Nat → Nat → Nat
  | 0, d => d
  | fuel + 1, d => if 5 ≤ d % 7 then adjustForwardGo fuel (d + 1) else d

/-- `_adjust_forward_to_weekday(d)`: roll forward day-by-day until a weekday. -/
def _adjust_forward_to_weekday (d : Nat) : Nat :=
  adjustForwardGo 7 d

/-- `_add_days_adjust_weekday(d, days)`: `d + timedelta(days)` rolled forward
to a weekday. -/
def _add_days_adjust_weekday (d : Nat) (days : Nat) : Nat :=
  _adjust_forward_to_weekday (d + days)

/-- The list comprehension
`[i for i, r in enumerate(repeats) if r < max_repeats_per_date]`
from `_weighted_choice_index`. -/
def eligibleIndices (repeats : List Nat) (max_repeats_per_date : Nat) : List Nat :=
  ((repeats.enum.filter (fun p => p.2 < max_repeats_per_date)).map Prod.fst)

/-- `_weighted_choice_index(weights, repeats, max_repeats_per_date)`.
`random.choices(eligible_indices, weights=eligible_weights, k=1)[0]` is the
oracle `pick` applied to the eligible indices (see file header: all bell
weights are strictly positive, so any member can be drawn). -/
def _weighted_choice_index (pick : List Nat → Nat) (repeats : List Nat)
    (max_repeats_per_date : Nat) : Except String Nat :=
  let eligible_indices := eligibleIndices repeats max_repeats_per_date
  if eligible_indices.isEmpty then
    .error "No eligible dates left to repeat (hit max repeats everywhere)."
  else
    .ok (pick eligible_indices)

/-- The `while extras > 0:` allocation loop of `_generate_random_weekday_dates`:
each iteration picks an eligible index and increments its repeat count.
Structural recursion on `extras`, which the loop decrements by 1 each pass. -/
def allocateExtrasLoop (pick : List Nat → Nat) (max_repeats_per_date : Nat) :
    Nat → List Nat → Except String (List Nat)
  | 0, repeats => .ok repeats
  | extras + 1, repeats =>
    match _weighted_choice_index pick repeats max_repeats_per_date with
    | .error e => .error e
    | .ok idx => allocateExtrasLoop pick max_repeats_per_date extras
        (repeats.set idx (repeats.getD idx 0 + 1))

/-- The expansion loop `for d, r in zip(dates, repeats): out.extend([d] * r)`. -/
def expandRepeats : List Nat → List Nat → List Nat
  | d :: ds, r :: rs => List.replicate r d ++ expandRepeats ds rs
  | _, _ => []

/-- The infeasible-request message of `_generate_random_weekday_dates`. -/
def infeasibleMsg (count : Int) (max_repeats_per_date m : Nat) : String :=
  s!"Cannot assign {count} pages with max {max_repeats_per_date} repeats per date over only {m} weekday(s). Maximum possible is {max_repeats_per_date * m}."

/-- `_generate_random_weekday_dates(count, start_date, end_date,
allowed_weekdays, max_repeats_per_date)`.  `count` is `Int` because the Python
function explicitly handles `count <= 0`.  `sample` and `pick` model
`random.sample` and `random.choices` (see header). -/
def _generate_random_weekday_dates (sample : Nat → Nat → List Nat)
    (pick : List Nat → Nat) (count : Int) (start_date end_date : Nat)
    (allowed_weekdays : List Nat) (max_repeats_per_date : Nat) :
    Except String (List Nat) :=
  if count ≤ 0 then .ok []
  else if allowed_weekdays.isEmpty then
    .error "No weekdays available in the provided date range."
  else
    -- Find first index >= start_date, and last index <= end_date
    let start_idx? := allowed_weekdays.findIdx? (fun d => start_date ≤ d)
    let end_idx? :=
      ((allowed_weekdays.enum.filter (fun p => p.2 ≤ end_date)).map Prod.fst).getLast?
    match start_idx?, end_idx? with
    | none, _ => .error "Date range does not contain any valid weekdays."
    | _, none => .error "Date range does not contain any valid weekdays."
    | some start_idx, some end_idx =>
      if end_idx < start_idx then .error "Date range does not contain any valid weekdays."
      else
        let dates := (allowed_weekdays.drop start_idx).take (end_idx + 1 - start_idx)
        let m := dates.length
        let max_possible := max_repeats_per_date * m
        if (max_possible : Int) < count then
          .error (infeasibleMsg count max_repeats_per_date m)
        else if count ≤ (m : Int) then
          -- chosen = sorted(random.sample(range(m), count))
          let chosen := (sample m count.toNat).mergeSort (· ≤ ·)
          .ok (chosen.map (fun i => dates.getD i 0))
        else
          let repeats := List.replicate m 1
          let extras := count.toNat - m
          match allocateExtrasLoop pick max_repeats_per_date extras repeats with
          | .error e => .error e
          | .ok repeats' => .ok ((expandRepeats dates repeats').take count.toNat)

/-- The per-character loop of `_cell_to_col_row`, carrying the accumulated
letter and digit lists; a letter after a digit, or any other character, is an
error. -/
def cellScan (cell : String) : List Char → List Char → List Char →
    Except String (List Char × List Char)
  | [], letters, digits => .ok (letters, digits)
  | ch :: rest, letters, digits =>
    if 'A' ≤ ch ∧ ch ≤ 'Z' then
      if ¬ digits.isEmpty then .error s!"Invalid cell reference: {cell}"
      else cellScan cell rest (letters ++ [ch]) digits
    else if '0' ≤ ch ∧ ch ≤ '9' then cellScan cell rest letters (digits ++ [ch])
    else .error s!"Invalid cell reference: {cell}"

/-- `cell.strip()` on the character list: drop whitespace from both ends. -/
def stripChars (cs : List Char) : List Char :=
  ((cs.dropWhile Char.isWhitespace).reverse.dropWhile Char.isWhitespace).reverse

/-- `_cell_to_col_row(cell)`: parse `"K12"`-style cell references into
(column number, row number).  `cell.strip().upper()` becomes a character-level
strip and upper-case map. -/
def _cell_to_col_row (cell : String) : Except String (Nat × Nat) :=
  let chars := (stripChars cell.data).map Char.toUpper
  let cellU : String := ⟨chars⟩
  if chars.isEmpty then .error "Cell reference cannot be empty."
  else
    match cellScan cellU chars [] [] with
    | .error e => .error e
    | .ok (letters, digits) =>
      if letters.isEmpty ∨ digits.isEmpty then .error s!"Invalid cell reference: {cellU}"
      else
        let col := letters.foldl (fun c ch => c * 26 + (ch.toNat - 'A'.toNat + 1)) 0
        let row := digits.foldl (fun r ch => r * 10 + (ch.toNat - '0'.toNat)) 0
        if row = 0 then .error s!"Invalid row in cell reference: {cellU}"
        else .ok (col, row)

/-- `InvoiceDatesConfig` (frozen dataclass). -/
structure InvoiceDatesConfig where
  first_page_invoice_cell : String
  second_page_invoice_cell : String
  expiration_row_offset : Nat
  expiration_days : Nat
  max_step_days : Nat
  max_pages : Nat

/-- The dataclass's default field values: cells K12/K61, expiration offset 1
row and 30 days, max step 11, hard cap 50 pages. -/
def defaultInvoiceDatesConfig : InvoiceDatesConfig :=
  ⟨"K12", "K61", 1, 30, 11, 50⟩

/-- `apply_invoice_and_expiration_dates`, up to the Excel/COM boundary: the
checks, page/cell arithmetic and date generation are modelled exactly; the
workbook writes are abstracted into the returned list of
(invoice row, invoice date, expiration date) triples, one per page, in page
order.  The file-existence check and the Excel calls are I/O and are outside
the model. -/
def apply_invoice_and_expiration_dates (sample : Nat → Nat → List Nat)
    (pick : List Nat → Nat) (total_pages : Int) (start_date end_date : Nat)
    (config : InvoiceDatesConfig) : Except String (List (Nat × Nat × Nat)) :=
  if total_pages ≤ 0 then .ok []
  else if 5 ≤ start_date % 7 ∨ 5 ≤ end_date % 7 then
    .error "start_date and end_date must be weekdays (Mon–Fri)."
  else if end_date < start_date then
    .error "end_date must be the same or after start_date."
  else
    let pages_to_apply : Int := min total_pages (config.max_pages : Int)
    match _cell_to_col_row config.first_page_invoice_cell,
        _cell_to_col_row config.second_page_invoice_cell with
    | .error e, _ => .error e
    | _, .error e => .error e
    | .ok (_invoice_col, first_row), .ok (_, second_row) =>
      if second_row ≤ first_row then
        let spc := config.second_page_invoice_cell
        let fpc := config.first_page_invoice_cell
        .error s!"Invalid page stride: {spc} must be below {fpc}."
      else
        let page_row_step := second_row - first_row
        let allowed_weekdays := _weekdays_in_range start_date end_date
        if allowed_weekdays.isEmpty then
          .error "No weekdays available in the provided date range."
        else
          match _generate_random_weekday_dates sample pick pages_to_apply
              start_date end_date allowed_weekdays 3 with
          | .error e => .error e
          | .ok invoice_dates =>
            .ok (invoice_dates.enum.map (fun p =>
              (first_row + p.1 * page_row_step, p.2,
                _add_days_adjust_weekday p.2 config.expiration_days)))

/-- Contract of `random.sample(range(n), k)` for `k ≤ n`: `k` distinct members
of `range(n)`. -/
def ValidSample (sample : Nat → Nat → List Nat) : Prop :=
  ∀ n k, k ≤ n →
    (sample n k).length = k ∧ (sample n k).Nodup ∧ ∀ i ∈ sample n k, i < n

/-- Contract of `random.choices(population, weights, k=1)[0]` with strictly
positive weights: the draw is a member of the population. -/
def ValidPick (pick : List Nat → Nat) : Prop :=
  ∀ l, l ≠ [] → pick l ∈ l

/-- A concrete valid `sample` oracle (used to witness theorems): the first `k`
indices. -/
def sample0 : Nat → Nat → List Nat := fun _ k => List.range k

/-- A concrete valid `pick` oracle (used to witness theorems): the first
eligible index. -/
def pick0 : List Nat → Nat := fun l => l.headD 0

theorem sample0_valid : ValidSample sample0 := by
  intro n k hk
  refine ⟨List.length_range k, List.nodup_range k, ?_⟩
  intro i hi
  have := List.mem_range.mp hi
  omega

theorem pick0_valid : ValidPick pick0 := by
  intro l hl
  cases l with
  | nil => exact absurd rfl hl
  | cons a t => simp [pick0]


/-! ## Facts about `_weekdays_in_range` -/

theorem mem_weekdaysInRangeGo (fuel : Nat) :
    ∀ cur d, d ∈ weekdaysInRangeGo fuel cur ↔ cur ≤ d ∧ d < cur + fuel ∧ d % 7 < 5 := by
  induction fuel with
  | zero => intro cur d; simp [weekdaysInRangeGo]; omega
  | succ n ih =>
    intro cur d
    simp only [weekdaysInRangeGo, List.mem_append, ih (cur + 1)]
    by_cases hw : cur % 7 < 5 <;> simp [hw] <;> omega

theorem mem_weekdays_in_range (start end_ d : Nat) :
    d ∈ _weekdays_in_range start end_ ↔ start ≤ d ∧ d ≤ end_ ∧ d % 7 < 5 := by
  unfold _weekdays_in_range
  rw [mem_weekdaysInRangeGo]
  omega

theorem pairwise_weekdaysInRangeGo (fuel : Nat) :
    ∀ cur, (weekdaysInRangeGo fuel cur).Pairwise (· < ·) := by
  induction fuel with
  | zero => intro cur; simp [weekdaysInRangeGo]
  | succ n ih =>
    intro cur
    simp only [weekdaysInRangeGo]
    by_cases hw : cur % 7 < 5
    · simp only [if_pos hw, List.singleton_append, List.pairwise_cons]
      refine ⟨?_, ih (cur + 1)⟩
      intro d hd
      have := (mem_weekdaysInRangeGo n (cur + 1) d).mp hd
      omega
    · simpa [if_neg hw] using ih (cur + 1)

theorem pairwise_weekdays_in_range (start end_ : Nat) :
    (_weekdays_in_range start end_).Pairwise (· < ·) :=
  pairwise_weekdaysInRangeGo _ _

theorem pairwise_le_weekdays_in_range (start end_ : Nat) :
    (_weekdays_in_range start end_).Pairwise (· ≤ ·) :=
  (pairwise_weekdays_in_range start end_).imp (fun h => Nat.le_of_lt h)

theorem nodup_weekdays_in_range (start end_ : Nat) :
    (_weekdays_in_range start end_).Nodup :=
  (pairwise_weekdays_in_range start end_).imp (fun h => Nat.ne_of_lt h)

/-! ## Facts about the expiration-date derivation -/

theorem adjust_forward_eq (x : Nat) :
    _adjust_forward_to_weekday x = if x % 7 < 5 then x else x + (7 - x % 7) := by
  have h7 : x % 7 < 7 := Nat.mod_lt _ (by omega)
  unfold _adjust_forward_to_weekday
  rcases Nat.lt_or_ge (x % 7) 5 with h | h
  · rw [if_pos h]
    simp only [adjustForwardGo]
    rw [if_neg (by omega)]
  · rw [if_neg (by omega)]
    rcases (by omega : x % 7 = 5 ∨ x % 7 = 6) with h5 | h6
    · have h1 : (x + 1) % 7 = 6 := by omega
      have h2 : (x + 2) % 7 = 0 := by omega
      simp only [adjustForwardGo]
      rw [if_pos (by omega), if_pos (by omega), if_neg (by omega)]
      omega
    · have h1 : (x + 1) % 7 = 0 := by omega
      simp only [adjustForwardGo]
      rw [if_pos (by omega), if_neg (by omega)]
      omega

/-! ## List helper lemmas -/

theorem getD_eq_getElem (l : List Nat) (i : Nat) (h : i < l.length) :
    l.getD i 0 = l[i] := by
  simp [List.getD_eq_getElem?_getD, List.getElem?_eq_getElem h]

theorem sum_set_getD (l : List Nat) (i : Nat) (h : i < l.length) :
    (l.set i (l.getD i 0 + 1)).sum = l.sum + 1 := by
  induction l generalizing i with
  | nil => simp at h
  | cons a t ih =>
    cases i with
    | zero => simp [List.getD_cons_zero]; omega
    | succ n =>
      simp only [List.set_cons_succ, List.sum_cons, List.getD_cons_succ]
      rw [ih n (by simpa using h)]
      omega

theorem getD_set_ne (l : List Nat) (i j v : Nat) (h : i ≠ j) :
    (l.set i v).getD j 0 = l.getD j 0 := by
  simp [List.getD_eq_getElem?_getD, List.getElem?_set_ne h]

theorem getD_set_self (l : List Nat) (i v : Nat) (h : i < l.length) :
    (l.set i v).getD i 0 = v := by
  simp [List.getD_eq_getElem?_getD, List.getElem?_set_self, h]

theorem sum_lower_bound (cap : Nat) (l : List Nat) (h : ∀ r ∈ l, cap ≤ r) :
    cap * l.length ≤ l.sum := by
  induction l with
  | nil => simp
  | cons a t ih =>
    simp only [List.length_cons, List.sum_cons]
    have ha := h a (List.mem_cons_self a t)
    have := ih (fun r hr => h r (List.mem_cons_of_mem a hr))
    calc cap * (t.length + 1) = cap * t.length + cap := by ring
    _ ≤ t.sum + a := by omega
    _ = a + t.sum := by omega

theorem pairwise_le_getD_mono (l : List Nat) (h : l.Pairwise (· ≤ ·)) (i j : Nat)
    (hij : i ≤ j) (hj : j < l.length) : l.getD i 0 ≤ l.getD j 0 := by
  rcases Nat.eq_or_lt_of_le hij with rfl | hlt
  · exact le_refl _
  · rw [getD_eq_getElem l i (by omega), getD_eq_getElem l j hj]
    exact List.pairwise_iff_getElem.mp h i j (by omega) hj hlt

/-! ## The eligible-index set and the extras-allocation loop -/

theorem mem_eligibleIndices (repeats : List Nat) (cap i : Nat) :
    i ∈ eligibleIndices repeats cap ↔ i < repeats.length ∧ repeats.getD i 0 < cap := by
  unfold eligibleIndices
  simp only [List.mem_map, List.mem_filter]
  constructor
  · rintro ⟨p, ⟨hpe, hplt⟩, rfl⟩
    rw [List.mem_enum_iff_getElem?] at hpe
    obtain ⟨hlen, he⟩ := List.getElem?_eq_some.mp hpe
    refine ⟨hlen, ?_⟩
    rw [getD_eq_getElem _ _ hlen, he]
    simpa using hplt
  · rintro ⟨hlen, hlt⟩
    refine ⟨(i, repeats.getD i 0), ⟨?_, by simpa using hlt⟩, rfl⟩
    rw [List.mem_enum_iff_getElem?]
    simp [List.getElem?_eq_getElem hlen, getD_eq_getElem _ _ hlen]

theorem allocateExtrasLoop_spec (pick : List Nat → Nat) (hp : ValidPick pick)
    (cap : Nat) :
    ∀ extras repeats, (∀ r ∈ repeats, r ≤ cap) →
    repeats.sum + extras ≤ cap * repeats.length →
    ∃ res, allocateExtrasLoop pick cap extras repeats = .ok res ∧
      res.length = repeats.length ∧ res.sum = repeats.sum + extras ∧
      (∀ r ∈ res, r ≤ cap) ∧ (∀ i, repeats.getD i 0 ≤ res.getD i 0) := by
  intro extras
  induction extras with
  | zero =>
    intro repeats _ _
    exact ⟨repeats, rfl, rfl, by omega, by tauto, fun i => le_refl _⟩
  | succ n ih =>
    intro repeats hcap hsum
    -- some entry is still below the cap, so the eligible list is nonempty
    have hex : ∃ r ∈ repeats, r < cap := by
      by_contra hall
      push_neg at hall
      have : cap * repeats.length ≤ repeats.sum :=
        sum_lower_bound cap repeats (fun r hr => hall r hr)
      omega
    obtain ⟨r, hr, hrlt⟩ := hex
    obtain ⟨j, hj, hje⟩ := List.mem_iff_getElem.mp hr
    have hjel : j ∈ eligibleIndices repeats cap := by
      rw [mem_eligibleIndices]
      exact ⟨hj, by rw [getD_eq_getElem _ _ hj, hje]; exact hrlt⟩
    have hne : eligibleIndices repeats cap ≠ [] := by
      intro h0; rw [h0] at hjel; exact (List.not_mem_nil j) hjel
    have hidx := hp _ hne
    rw [mem_eligibleIndices] at hidx
    obtain ⟨hilen, hilt⟩ := hidx
    set idx := pick (eligibleIndices repeats cap) with hidxdef
    -- unfold one loop iteration
    have hstep : allocateExtrasLoop pick cap (n + 1) repeats =
        allocateExtrasLoop pick cap n (repeats.set idx (repeats.getD idx 0 + 1)) := by
      simp only [allocateExtrasLoop, _weighted_choice_index]
      rw [if_neg (by simpa [List.isEmpty_iff] using hne)]
    set repeats2 := repeats.set idx (repeats.getD idx 0 + 1) with hr2
    have hlen2 : repeats2.length = repeats.length := by simp [hr2]
    have hsum2 : repeats2.sum = repeats.sum + 1 := sum_set_getD repeats idx hilen
    have hcap2 : ∀ r ∈ repeats2, r ≤ cap := by
      intro x hx
      rcases List.mem_or_eq_of_mem_set hx with hx' | rfl
      · exact hcap x hx'
      · omega
    obtain ⟨res, hres, hl, hs, hc, hmono⟩ := ih repeats2 hcap2 (by rw [hsum2, hlen2]; omega)
    refine ⟨res, by rw [hstep]; exact hres, by omega, by omega, hc, ?_⟩
    intro i
    refine le_trans ?_ (hmono i)
    by_cases hii : idx = i
    · subst hii
      rw [getD_set_self repeats idx _ hilen]
      omega
    · rw [getD_set_ne repeats idx i _ hii]

/-! ## The expansion loop -/

theorem length_expandRepeats :
    ∀ (L R : List Nat), R.length = L.length → (expandRepeats L R).length = R.sum := by
  intro L
  induction L with
  | nil => intro R h; cases R <;> simp_all [expandRepeats]
  | cons d ds ih =>
    intro R h
    cases R with
    | nil => simp at h
    | cons r rs =>
      simp only [expandRepeats, List.length_append, List.length_replicate, List.sum_cons]
      rw [ih rs (by simpa using h)]

theorem mem_expandRepeats :
    ∀ (L R : List Nat) (x : Nat), x ∈ expandRepeats L R → x ∈ L := by
  intro L
  induction L with
  | nil => intro R x hx; cases R <;> simp [expandRepeats] at hx
  | cons d ds ih =>
    intro R x hx
    cases R with
    | nil => simp [expandRepeats] at hx
    | cons r rs =>
      simp only [expandRepeats, List.mem_append] at hx
      rcases hx with hx | hx
      · rw [List.eq_of_mem_replicate hx]; exact List.mem_cons_self d ds
      · exact List.mem_cons_of_mem d (ih rs x hx)

theorem pairwise_expandRepeats :
    ∀ (L R : List Nat), L.Pairwise (· ≤ ·) → (expandRepeats L R).Pairwise (· ≤ ·) := by
  intro L
  induction L with
  | nil => intro R _; cases R <;> simp [expandRepeats]
  | cons d ds ih =>
    intro R h
    cases R with
    | nil => simp [expandRepeats]
    | cons r rs =>
      simp only [expandRepeats]
      rw [List.pairwise_append]
      refine ⟨List.pairwise_replicate.mpr (by simp), ih rs (List.Pairwise.sublist (by simp) h), ?_⟩
      intro a ha b hb
      rw [List.eq_of_mem_replicate ha]
      have hbds := mem_expandRepeats ds rs b hb
      exact List.rel_of_pairwise_cons h hbds

theorem count_expandRepeats_notmem :
    ∀ (L R : List Nat) (x : Nat), x ∉ L → (expandRepeats L R).count x = 0 := by
  intro L R x hx
  rw [List.count_eq_zero]
  intro hmem
  exact hx (mem_expandRepeats L R x hmem)

theorem count_expandRepeats_getD :
    ∀ (L R : List Nat), L.Nodup → R.length = L.length →
    ∀ i, i < L.length → (expandRepeats L R).count (L.getD i 0) = R.getD i 0 := by
  intro L
  induction L with
  | nil => intro R _ _ i hi; simp at hi
  | cons d ds ih =>
    intro R hnd hlen i hi
    cases R with
    | nil => simp at hlen
    | cons r rs =>
      simp only [expandRepeats, List.count_append]
      cases i with
      | zero =>
        simp only [List.getD_cons_zero]
        rw [count_expandRepeats_notmem ds rs d (by simp at hnd; tauto)]
        simp
      | succ n =>
        simp only [List.getD_cons_succ]
        have hn : n < ds.length := by simpa using hi
        have hmem : ds.getD n 0 ∈ ds := by
          rw [getD_eq_getElem ds n hn]; exact List.getElem_mem hn
        have hne : ds.getD n 0 ≠ d := by
          intro he
          rw [he] at hmem
          simp at hnd
          tauto
        have hne' : d ≠ ds.getD n 0 := fun he => hne he.symm
        rw [ih rs (by simp at hnd; tauto) (by simpa using hlen) n hn]
        have hne2 : ¬ (d = ds[n]?.getD 0) := by simpa [List.getD] using hne'
        simp [List.count_replicate, hne2]

/-! ## Unfolding `_generate_random_weekday_dates` on its caller's pool

`apply_invoice_and_expiration_dates` always passes
`allowed_weekdays = _weekdays_in_range start_date end_date`.  On that pool the
index scan finds the whole list: every element is ≥ `start_date` (so
`start_idx = 0`) and ≤ `end_date` (so `end_idx = m - 1`), and the slice
`dates = allowed_weekdays[start_idx : end_idx + 1]` is the pool itself. -/

theorem findIdx_weekdays (s e : Nat) (h : _weekdays_in_range s e ≠ []) :
    (_weekdays_in_range s e).findIdx? (fun d => s ≤ d) = some 0 := by
  cases hL : _weekdays_in_range s e with
  | nil => exact absurd hL h
  | cons a t =>
    have ha : a ∈ _weekdays_in_range s e := by rw [hL]; exact List.mem_cons_self a t
    have has := (mem_weekdays_in_range s e a).mp ha
    simp [List.findIdx?, has.1]

theorem endIdx_weekdays (s e : Nat) (h : _weekdays_in_range s e ≠ []) :
    (((_weekdays_in_range s e).enum.filter (fun p => p.2 ≤ e)).map Prod.fst).getLast?
      = some ((_weekdays_in_range s e).length - 1) := by
  have hfilter : (_weekdays_in_range s e).enum.filter (fun p => p.2 ≤ e)
      = (_weekdays_in_range s e).enum := by
    apply List.filter_eq_self.mpr
    intro p hp
    rw [List.mem_enum_iff_getElem?] at hp
    obtain ⟨hlen, he⟩ := List.getElem?_eq_some.mp hp
    have hmem : p.2 ∈ _weekdays_in_range s e := he ▸ List.getElem_mem hlen
    have := (mem_weekdays_in_range s e p.2).mp hmem
    simpa using this.2.1
  rw [hfilter, List.enum_map_fst]
  have hpos : 0 < (_weekdays_in_range s e).length := List.length_pos.mpr h
  rw [List.getLast?_eq_getElem?]
  simp only [List.length_range]
  rw [List.getElem?_range (by omega)]

theorem gen_unfold (sample : Nat → Nat → List Nat) (pick : List Nat → Nat)
    (count : Int) (s e cap : Nat) (hc : 0 < count)
    (hne : _weekdays_in_range s e ≠ []) :
    _generate_random_weekday_dates sample pick count s e (_weekdays_in_range s e) cap =
      if ((cap * (_weekdays_in_range s e).length : Nat) : Int) < count then
        .error (infeasibleMsg count cap (_weekdays_in_range s e).length)
      else if count ≤ ((_weekdays_in_range s e).length : Int) then
        .ok (((sample (_weekdays_in_range s e).length count.toNat).mergeSort (· ≤ ·)).map
          (fun i => (_weekdays_in_range s e).getD i 0))
      else
        match allocateExtrasLoop pick cap
            (count.toNat - (_weekdays_in_range s e).length)
            (List.replicate (_weekdays_in_range s e).length 1) with
        | .error er => .error er
        | .ok repeats2 =>
          .ok ((expandRepeats (_weekdays_in_range s e) repeats2).take count.toNat) := by
  have hpos : 0 < (_weekdays_in_range s e).length := List.length_pos.mpr hne
  have hE : (_weekdays_in_range s e).isEmpty = false := by
    cases hL : _weekdays_in_range s e with
    | nil => exact absurd hL hne
    | cons a t => rfl
  unfold _generate_random_weekday_dates
  rw [if_neg (by omega : ¬ count ≤ 0)]
  simp only [hE, Bool.false_eq_true, if_false,
    findIdx_weekdays s e hne, endIdx_weekdays s e hne]
  rw [if_neg (by omega : ¬ (_weekdays_in_range s e).length - 1 < 0)]
  have harith : (_weekdays_in_range s e).length - 1 + 1 - 0 = (_weekdays_in_range s e).length := by
    omega
  simp only [List.drop_zero, harith, List.take_length]

theorem mergeSort_pairwise_le (l : List Nat) :
    (l.mergeSort (· ≤ ·)).Pairwise (· ≤ ·) := by
  have h := @List.sorted_mergeSort Nat (fun a b => decide (a ≤ b))
    (by intro a b c hab hbc; simp at hab hbc ⊢; omega)
    (by intro a b; simp; omega) l
  exact h.imp (fun hab => by simpa using hab)

/-- Master correctness lemma for `_generate_random_weekday_dates` called on
the pool `_weekdays_in_range s e` (as `apply_invoice_and_expiration_dates`
does), for every valid random draw: it succeeds, the output has length
`count`, is non-decreasing, draws only pool dates, repeats no date more than
`max_repeats_per_date` times, is strictly increasing when `count ≤ |pool|`,
and uses every pool date at least once when `count > |pool|`. -/
theorem genSpec (sample : Nat → Nat → List Nat) (pick : List Nat → Nat)
    (hs : ValidSample sample) (hp : ValidPick pick) (count : Int) (s e cap : Nat)
    (hc : 0 < count) (hne : _weekdays_in_range s e ≠ [])
    (hfeas : count ≤ ((cap * (_weekdays_in_range s e).length : Nat) : Int)) :
    ∃ out : List Nat,
      _generate_random_weekday_dates sample pick count s e (_weekdays_in_range s e) cap
        = .ok out ∧
      (out.length : Int) = count ∧
      out.Pairwise (· ≤ ·) ∧
      (∀ d ∈ out, d ∈ _weekdays_in_range s e) ∧
      (∀ d, out.count d ≤ cap) ∧
      (count ≤ ((_weekdays_in_range s e).length : Int) → out.Pairwise (· < ·)) ∧
      (((_weekdays_in_range s e).length : Int) < count →
        ∀ d ∈ _weekdays_in_range s e, 1 ≤ out.count d) := by
  have hpos : 0 < (_weekdays_in_range s e).length := List.length_pos.mpr hne
  have hcap : 0 < cap := by
    rcases Nat.eq_zero_or_pos cap with h0 | h; · rw [h0] at hfeas; simp at hfeas; omega
    · exact h
  rw [gen_unfold sample pick count s e cap hc hne]
  rw [if_neg (by omega : ¬ ((cap * (_weekdays_in_range s e).length : Nat) : Int) < count)]
  by_cases hbr : count ≤ ((_weekdays_in_range s e).length : Int)
  · -- count ≤ m: a sorted sample of distinct indices
    rw [if_pos hbr]
    obtain ⟨hlen, hnd, hsub⟩ := hs (_weekdays_in_range s e).length count.toNat (by omega)
    have hperm := List.mergeSort_perm (sample (_weekdays_in_range s e).length count.toNat)
      (fun a b => decide (a ≤ b))
    set chosen := (sample (_weekdays_in_range s e).length count.toNat).mergeSort (· ≤ ·)
      with hch
    have hchlen : chosen.length = count.toNat := by rw [hperm.length_eq, hlen]
    have hchnd : chosen.Nodup := hperm.nodup_iff.mpr hnd
    have hchsub : ∀ i ∈ chosen, i < (_weekdays_in_range s e).length :=
      fun i hi => hsub i (hperm.mem_iff.mp hi)
    have hchsort : chosen.Pairwise (· ≤ ·) := mergeSort_pairwise_le _
    have hchlt : chosen.Pairwise (· < ·) :=
      (hchsort.and hchnd).imp (fun hab => lt_of_le_of_ne hab.1 hab.2)
    refine ⟨chosen.map (fun i => (_weekdays_in_range s e).getD i 0), rfl, ?_, ?_, ?_, ?_, ?_, ?_⟩
    · rw [List.length_map, hchlen]; omega
    · -- non-decreasing
      rw [List.pairwise_map]
      refine (hchlt.imp_of_mem ?_)
      intro a b ha hb hab
      rw [getD_eq_getElem _ _ (hchsub a ha), getD_eq_getElem _ _ (hchsub b hb)]
      exact le_of_lt (List.pairwise_iff_getElem.mp (pairwise_weekdays_in_range s e)
        a b (hchsub a ha) (hchsub b hb) hab)
    · -- membership
      intro d hd
      rw [List.mem_map] at hd
      obtain ⟨i, hi, rfl⟩ := hd
      rw [getD_eq_getElem _ _ (hchsub i hi)]
      exact List.getElem_mem (hchsub i hi)
    · -- counts ≤ cap (the output is duplicate-free here)
      intro d
      have hmapnd : (chosen.map (fun i => (_weekdays_in_range s e).getD i 0)).Nodup := by
        have : (chosen.map (fun i => (_weekdays_in_range s e).getD i 0)).Pairwise (· < ·) := by
          rw [List.pairwise_map]
          refine (hchlt.imp_of_mem ?_)
          intro a b ha hb hab
          rw [getD_eq_getElem _ _ (hchsub a ha), getD_eq_getElem _ _ (hchsub b hb)]
          exact List.pairwise_iff_getElem.mp (pairwise_weekdays_in_range s e)
            a b (hchsub a ha) (hchsub b hb) hab
        exact this.imp Nat.ne_of_lt
      exact le_trans (List.nodup_iff_count_le_one.mp hmapnd d) hcap
    · -- strictly increasing
      intro _
      rw [List.pairwise_map]
      refine (hchlt.imp_of_mem ?_)
      intro a b ha hb hab
      rw [getD_eq_getElem _ _ (hchsub a ha), getD_eq_getElem _ _ (hchsub b hb)]
      exact List.pairwise_iff_getElem.mp (pairwise_weekdays_in_range s e)
        a b (hchsub a ha) (hchsub b hb) hab
    · intro hmc
      exact absurd hmc (by omega)
  · -- count > m: one of each date plus allocated extras
    rw [if_neg hbr]
    have hmc : ((_weekdays_in_range s e).length : Int) < count := by omega
    have hsumrep : (List.replicate (_weekdays_in_range s e).length (1 : Nat)).sum
        = (_weekdays_in_range s e).length := by simp
    obtain ⟨res, hres, hl, hsum', hcapr, hmono⟩ :=
      allocateExtrasLoop_spec pick hp cap (count.toNat - (_weekdays_in_range s e).length)
        (List.replicate (_weekdays_in_range s e).length 1)
        (by intro r hr; rw [List.mem_replicate] at hr; omega)
        (by rw [hsumrep, List.length_replicate]; omega)
    rw [hres]
    rw [List.length_replicate] at hl
    rw [hsumrep] at hsum'
    have hreslen : res.length = (_weekdays_in_range s e).length := hl
    have hressum : res.sum = count.toNat := by omega
    have hexplen : (expandRepeats (_weekdays_in_range s e) res).length = count.toNat := by
      rw [length_expandRepeats _ _ hreslen, hressum]
    have htake : (expandRepeats (_weekdays_in_range s e) res).take count.toNat
        = expandRepeats (_weekdays_in_range s e) res :=
      List.take_of_length_le (by omega)
    have hresget1 : ∀ i, i < (_weekdays_in_range s e).length → 1 ≤ res.getD i 0 := by
      intro i hi
      have h1 := hmono i
      have : (List.replicate (_weekdays_in_range s e).length (1 : Nat)).getD i 0 = 1 := by
        rw [getD_eq_getElem _ _ (by simpa using hi)]
        simp
      omega
    refine ⟨expandRepeats (_weekdays_in_range s e) res, ?_, ?_, ?_, ?_, ?_, ?_, ?_⟩
    · show Except.ok ((expandRepeats (_weekdays_in_range s e) res).take count.toNat)
        = Except.ok (expandRepeats (_weekdays_in_range s e) res)
      rw [htake]
    · rw [hexplen]; omega
    · exact pairwise_expandRepeats _ _ (pairwise_le_weekdays_in_range s e)
    · intro d hd
      exact mem_expandRepeats _ _ d hd
    · intro d
      by_cases hdL : d ∈ _weekdays_in_range s e
      · obtain ⟨i, hi, hie⟩ := List.mem_iff_getElem.mp hdL
        have hcount := count_expandRepeats_getD (_weekdays_in_range s e) res
          (nodup_weekdays_in_range s e) hreslen i hi
        rw [getD_eq_getElem _ _ hi, hie] at hcount
        rw [hcount]
        have : res.getD i 0 ∈ res := by
          rw [getD_eq_getElem _ _ (by omega)]
          exact List.getElem_mem (by omega)
        exact hcapr _ this
      · rw [count_expandRepeats_notmem _ _ d hdL]; omega
    · intro hle
      exact absurd hle (by omega)
    · intro _ d hdL
      obtain ⟨i, hi, hie⟩ := List.mem_iff_getElem.mp hdL
      have hcount := count_expandRepeats_getD (_weekdays_in_range s e) res
        (nodup_weekdays_in_range s e) hreslen i hi
      rw [getD_eq_getElem _ _ hi, hie] at hcount
      rw [hcount]
      exact hresget1 i hi

/-- In a non-decreasing list, equal endpoints force equality in between: all
occurrences of a value are contiguous. -/
theorem sorted_getD_contiguous (l : List Nat) (h : l.Pairwise (· ≤ ·)) (i j k : Nat)
    (hij : i ≤ j) (hjk : j ≤ k) (hk : k < l.length)
    (he : l.getD i 0 = l.getD k 0) : l.getD j 0 = l.getD i 0 := by
  have h1 := pairwise_le_getD_mono l h i j hij (by omega)
  have h2 := pairwise_le_getD_mono l h j k hjk hk
  omega

/-! ## The claims -/

/-- C1: for every valid input (count ≥ 1, a range whose weekday pool is
non-empty, max_repeats_per_date ≥ 1, and count ≤ max_repeats_per_date × |pool|),
`_generate_random_weekday_dates` succeeds and its output has length exactly
`count`, for every possible random draw. -/
theorem C1_output_length (sample : Nat → Nat → List Nat) (pick : List Nat → Nat)
    (hs : ValidSample sample) (hp : ValidPick pick) (count : Int)
    (start_date end_date max_repeats_per_date : Nat) (hc : 1 ≤ count)
    (hne : _weekdays_in_range start_date end_date ≠ [])
    (hfeas : count ≤ ((max_repeats_per_date *
      (_weekdays_in_range start_date end_date).length : Nat) : Int)) :
    ∃ out, _generate_random_weekday_dates sample pick count start_date end_date
        (_weekdays_in_range start_date end_date) max_repeats_per_date = .ok out ∧
      (out.length : Int) = count := by
  obtain ⟨out, h1, h2, _⟩ := genSpec sample pick hs hp count start_date end_date
    max_repeats_per_date (by omega) hne hfeas
  exact ⟨out, h1, h2⟩

theorem C1_output_length_witness :
    ∃ out, _generate_random_weekday_dates sample0 pick0 3 0 4
        (_weekdays_in_range 0 4) 3 = .ok out ∧ (out.length : Int) = 3 :=
  C1_output_length sample0 pick0 sample0_valid pick0_valid 3 0 4 3
    (by decide) (by decide) (by decide)

/-- C2: for every valid input and every possible random draw, the output is
non-decreasing, and all occurrences of any single date form one contiguous
run (equal values at positions i ≤ k force the same value in between). -/
theorem C2_monotone_contiguous (sample : Nat → Nat → List Nat) (pick : List Nat → Nat)
    (hs : ValidSample sample) (hp : ValidPick pick) (count : Int)
    (start_date end_date max_repeats_per_date : Nat) (hc : 1 ≤ count)
    (hne : _weekdays_in_range start_date end_date ≠ [])
    (hfeas : count ≤ ((max_repeats_per_date *
      (_weekdays_in_range start_date end_date).length : Nat) : Int)) :
    ∃ out, _generate_random_weekday_dates sample pick count start_date end_date
        (_weekdays_in_range start_date end_date) max_repeats_per_date = .ok out ∧
      out.Pairwise (· ≤ ·) ∧
      (∀ i j k, i ≤ j → j ≤ k → k < out.length →
        out.getD i 0 = out.getD k 0 → out.getD j 0 = out.getD i 0) := by
  obtain ⟨out, h1, _, hsort, _⟩ := genSpec sample pick hs hp count start_date end_date
    max_repeats_per_date (by omega) hne hfeas
  exact ⟨out, h1, hsort, fun i j k hij hjk hk he =>
    sorted_getD_contiguous out hsort i j k hij hjk hk he⟩

theorem C2_monotone_contiguous_witness :
    ∃ out, _generate_random_weekday_dates sample0 pick0 10 0 4
        (_weekdays_in_range 0 4) 3 = .ok out ∧
      out.Pairwise (· ≤ ·) ∧
      (∀ i j k, i ≤ j → j ≤ k → k < out.length →
        out.getD i 0 = out.getD k 0 → out.getD j 0 = out.getD i 0) :=
  C2_monotone_contiguous sample0 pick0 sample0_valid pick0_valid 10 0 4 3
    (by decide) (by decide) (by decide)

/-- C3: the pool `_weekdays_in_range` is exactly the ascending duplicate-free
list of weekdays in the closed range, and every output element of
`_generate_random_weekday_dates` is a weekday lying within
[start_date, end_date]. -/
theorem C3_pool_weekdays (sample : Nat → Nat → List Nat) (pick : List Nat → Nat)
    (hs : ValidSample sample) (hp : ValidPick pick) (count : Int)
    (start_date end_date max_repeats_per_date : Nat) (hc : 1 ≤ count)
    (hne : _weekdays_in_range start_date end_date ≠ [])
    (hfeas : count ≤ ((max_repeats_per_date *
      (_weekdays_in_range start_date end_date).length : Nat) : Int)) :
    (∀ d, d ∈ _weekdays_in_range start_date end_date ↔
      start_date ≤ d ∧ d ≤ end_date ∧ d % 7 < 5) ∧
    (_weekdays_in_range start_date end_date).Pairwise (· < ·) ∧
    ∃ out, _generate_random_weekday_dates sample pick count start_date end_date
        (_weekdays_in_range start_date end_date) max_repeats_per_date = .ok out ∧
      ∀ d ∈ out, start_date ≤ d ∧ d ≤ end_date ∧ d % 7 < 5 := by
  refine ⟨fun d => mem_weekdays_in_range start_date end_date d,
    pairwise_weekdays_in_range start_date end_date, ?_⟩
  obtain ⟨out, h1, _, _, hmem, _⟩ := genSpec sample pick hs hp count start_date end_date
    max_repeats_per_date (by omega) hne hfeas
  exact ⟨out, h1, fun d hd =>
    (mem_weekdays_in_range start_date end_date d).mp (hmem d hd)⟩

theorem C3_pool_weekdays_witness :
    (∀ d, d ∈ _weekdays_in_range 0 4 ↔ 0 ≤ d ∧ d ≤ 4 ∧ d % 7 < 5) ∧
    (_weekdays_in_range 0 4).Pairwise (· < ·) ∧
    ∃ out, _generate_random_weekday_dates sample0 pick0 3 0 4
        (_weekdays_in_range 0 4) 3 = .ok out ∧
      ∀ d ∈ out, 0 ≤ d ∧ d ≤ 4 ∧ d % 7 < 5 :=
  C3_pool_weekdays sample0 pick0 sample0_valid pick0_valid 3 0 4 3
    (by decide) (by decide) (by decide)

/-- C4: no date occurs more than max_repeats_per_date times in the output,
and under the loop invariant (all repeat counts ≤ cap, and enough remaining
slots) every iteration of the extras-allocation loop succeeds — the
internal-invariant error branch of `_weighted_choice_index` is unreachable. -/
theorem C4_repeat_cap (sample : Nat → Nat → List Nat) (pick : List Nat → Nat)
    (hs : ValidSample sample) (hp : ValidPick pick) (count : Int)
    (start_date end_date max_repeats_per_date : Nat) (hc : 1 ≤ count)
    (hne : _weekdays_in_range start_date end_date ≠ [])
    (hfeas : count ≤ ((max_repeats_per_date *
      (_weekdays_in_range start_date end_date).length : Nat) : Int)) :
    (∃ out, _generate_random_weekday_dates sample pick count start_date end_date
        (_weekdays_in_range start_date end_date) max_repeats_per_date = .ok out ∧
      ∀ d, out.count d ≤ max_repeats_per_date) ∧
    (∀ extras repeats, (∀ r ∈ repeats, r ≤ max_repeats_per_date) →
      repeats.sum + extras ≤ max_repeats_per_date * repeats.length →
      ∃ res, allocateExtrasLoop pick max_repeats_per_date extras repeats = .ok res) := by
  constructor
  · obtain ⟨out, h1, _, _, _, hcount, _⟩ := genSpec sample pick hs hp count
      start_date end_date max_repeats_per_date (by omega) hne hfeas
    exact ⟨out, h1, hcount⟩
  · intro extras repeats hcap hsum
    obtain ⟨res, hres, _⟩ :=
      allocateExtrasLoop_spec pick hp max_repeats_per_date extras repeats hcap hsum
    exact ⟨res, hres⟩

theorem C4_repeat_cap_witness :
    (∃ out, _generate_random_weekday_dates sample0 pick0 10 0 4
        (_weekdays_in_range 0 4) 3 = .ok out ∧ ∀ d, out.count d ≤ 3) ∧
    (∀ extras repeats, (∀ r ∈ repeats, r ≤ 3) →
      repeats.sum + extras ≤ 3 * repeats.length →
      ∃ res, allocateExtrasLoop pick0 3 extras repeats = .ok res) :=
  C4_repeat_cap sample0 pick0 sample0_valid pick0_valid 10 0 4 3
    (by decide) (by decide) (by decide)

/-- C5: whenever count ≤ |pool| (with count ≥ 1 and cap ≥ 1), the output
consists of `count` pairwise-distinct dates — it is strictly increasing — for
every possible random draw. -/
theorem C5_distinct_when_fits (sample : Nat → Nat → List Nat) (pick : List Nat → Nat)
    (hs : ValidSample sample) (hp : ValidPick pick) (count : Int)
    (start_date end_date max_repeats_per_date : Nat) (hc : 1 ≤ count)
    (hcap : 1 ≤ max_repeats_per_date)
    (hne : _weekdays_in_range start_date end_date ≠ [])
    (hle : count ≤ ((_weekdays_in_range start_date end_date).length : Int)) :
    ∃ out, _generate_random_weekday_dates sample pick count start_date end_date
        (_weekdays_in_range start_date end_date) max_repeats_per_date = .ok out ∧
      (out.length : Int) = count ∧ out.Pairwise (· < ·) := by
  have hmul : (_weekdays_in_range start_date end_date).length ≤
      max_repeats_per_date * (_weekdays_in_range start_date end_date).length :=
    Nat.le_mul_of_pos_left _ hcap
  obtain ⟨out, h1, h2, _, _, _, hstrict, _⟩ := genSpec sample pick hs hp count
    start_date end_date max_repeats_per_date (by omega) hne (by push_cast; omega)
  exact ⟨out, h1, h2, hstrict hle⟩

theorem C5_distinct_when_fits_witness :
    ∃ out, _generate_random_weekday_dates sample0 pick0 3 0 4
        (_weekdays_in_range 0 4) 3 = .ok out ∧
      (out.length : Int) = 3 ∧ out.Pairwise (· < ·) :=
  C5_distinct_when_fits sample0 pick0 sample0_valid pick0_valid 3 0 4 3
    (by decide) (by decide) (by decide) (by decide)

/-- C6: on a non-empty pool with positive count and for every valid random
draw, `_generate_random_weekday_dates` raises the infeasible-request error
exactly when count > max_repeats_per_date × |pool|; the error is the
immediate result (no partial output), and in the feasible case a result is
produced. -/
theorem C6_infeasible_iff (sample : Nat → Nat → List Nat) (pick : List Nat → Nat)
    (hs : ValidSample sample) (hp : ValidPick pick) (count : Int)
    (start_date end_date max_repeats_per_date : Nat) (hc : 1 ≤ count)
    (hne : _weekdays_in_range start_date end_date ≠ []) :
    _generate_random_weekday_dates sample pick count start_date end_date
        (_weekdays_in_range start_date end_date) max_repeats_per_date
      = .error (infeasibleMsg count max_repeats_per_date
          (_weekdays_in_range start_date end_date).length)
    ↔ ((max_repeats_per_date *
        (_weekdays_in_range start_date end_date).length : Nat) : Int) < count := by
  constructor
  · intro herr
    by_contra hle
    obtain ⟨out, hok, _⟩ := genSpec sample pick hs hp count start_date end_date
      max_repeats_per_date (by omega) hne (by omega)
    rw [hok] at herr
    exact Except.noConfusion herr
  · intro hgt
    rw [gen_unfold sample pick count start_date end_date max_repeats_per_date
      (by omega) hne]
    rw [if_pos hgt]

theorem C6_infeasible_iff_witness :
    _generate_random_weekday_dates sample0 pick0 2 0 0 (_weekdays_in_range 0 0) 1
      = .error (infeasibleMsg 2 1 1) :=
  (C6_infeasible_iff sample0 pick0 sample0_valid pick0_valid 2 0 0 1
    (by decide) (by decide)).mpr (by decide)

/-- C7 counterexample: called with the non-positive count 0 (and otherwise
valid arguments), `_generate_random_weekday_dates` returns the empty list as
a normal result instead of raising an invalid-input error, refuting the claim
that every non-positive count raises immediately. -/
theorem C7_counterexample :
    _generate_random_weekday_dates sample0 pick0 0 0 4 (_weekdays_in_range 0 4) 3
      = .ok [] := rfl

/-- C7 (amended): for every non-positive count the generator immediately
returns an empty list — no error is raised, no validation or allocation work
is done, and the empty list is the entire result. -/
theorem C7_nonpositive_returns_empty (sample : Nat → Nat → List Nat)
    (pick : List Nat → Nat) (count : Int) (start_date end_date : Nat)
    (allowed_weekdays : List Nat) (max_repeats_per_date : Nat) (hc : count ≤ 0) :
    _generate_random_weekday_dates sample pick count start_date end_date
      allowed_weekdays max_repeats_per_date = .ok [] := by
  unfold _generate_random_weekday_dates
  rw [if_pos hc]

theorem C7_nonpositive_returns_empty_witness :
    _generate_random_weekday_dates sample0 pick0 (-4) 0 4 (_weekdays_in_range 0 4) 3
      = .ok [] :=
  C7_nonpositive_returns_empty sample0 pick0 (-4) 0 4 (_weekdays_in_range 0 4) 3
    (by decide)

/-- C8 counterexample: for the 5-weekday range [0,4] with count 10 and cap 3
there is a possible random draw (the pick oracle that always takes the first
eligible index, which has strictly positive bell weight and so can be drawn
by `random.choices`) whose output contains date 0 three times — not "every
weekday exactly twice". -/
theorem C8_counterexample :
    _generate_random_weekday_dates sample0 pick0 10 0 4 (_weekdays_in_range 0 4) 3
      = .ok [0, 0, 0, 1, 1, 1, 2, 2, 3, 4] ∧
    ¬ ([0, 0, 0, 1, 1, 1, 2, 2, 3, 4] : List Nat).count 0 = 2 :=
  ⟨rfl, by decide⟩

/-- C8 (amended): for a range containing exactly 5 weekdays, count = 10 and
cap = 3, every possible random draw yields a sequence of length 10 that is
non-decreasing with contiguous runs per date, in which each of the 5 weekdays
appears at least once and at most 3 times (but not necessarily exactly
twice). -/
theorem C8_five_pool_count_ten (sample : Nat → Nat → List Nat) (pick : List Nat → Nat)
    (hs : ValidSample sample) (hp : ValidPick pick) (start_date end_date : Nat)
    (h5 : (_weekdays_in_range start_date end_date).length = 5) :
    ∃ out, _generate_random_weekday_dates sample pick 10 start_date end_date
        (_weekdays_in_range start_date end_date) 3 = .ok out ∧
      out.length = 10 ∧ out.Pairwise (· ≤ ·) ∧
      (∀ d ∈ _weekdays_in_range start_date end_date,
        1 ≤ out.count d ∧ out.count d ≤ 3) ∧
      (∀ i j k, i ≤ j → j ≤ k → k < out.length →
        out.getD i 0 = out.getD k 0 → out.getD j 0 = out.getD i 0) := by
  have hne : _weekdays_in_range start_date end_date ≠ [] := by
    intro h0; rw [h0] at h5; simp at h5
  obtain ⟨out, h1, hlen, hsort, _, hcount, _, hone⟩ := genSpec sample pick hs hp 10
    start_date end_date 3 (by omega) hne (by rw [h5]; decide)
  refine ⟨out, h1, by omega, hsort, ?_, fun i j k hij hjk hk he =>
    sorted_getD_contiguous out hsort i j k hij hjk hk he⟩
  intro d hd
  exact ⟨hone (by rw [h5]; decide) d hd, hcount d⟩

theorem C8_five_pool_count_ten_witness :
    ∃ out, _generate_random_weekday_dates sample0 pick0 10 0 4
        (_weekdays_in_range 0 4) 3 = .ok out ∧
      out.length = 10 ∧ out.Pairwise (· ≤ ·) ∧
      (∀ d ∈ _weekdays_in_range 0 4, 1 ≤ out.count d ∧ out.count d ≤ 3) ∧
      (∀ i j k, i ≤ j → j ≤ k → k < out.length →
        out.getD i 0 = out.getD k 0 → out.getD j 0 = out.getD i 0) :=
  C8_five_pool_count_ten sample0 pick0 sample0_valid pick0_valid 0 4 (by decide)

/-- C9: the expiration derivation `_add_days_adjust_weekday d n` returns the
first weekday on or after d + n: it is ≥ d + n, is a weekday, is minimal with
those properties, equals d + n when that day is already a weekday, and from a
Saturday or Sunday rolls forward to the following Monday
(weekday 0, reached after 7 − (d+n) mod 7 further days).  The function is a
pure function of (d, n): deterministic, no randomness, no repeat cap. -/
theorem C9_expiration_first_weekday (d n : Nat) :
    d + n ≤ _add_days_adjust_weekday d n ∧
    (_add_days_adjust_weekday d n) % 7 < 5 ∧
    (∀ x, d + n ≤ x → x % 7 < 5 → _add_days_adjust_weekday d n ≤ x) ∧
    ((d + n) % 7 < 5 → _add_days_adjust_weekday d n = d + n) ∧
    (5 ≤ (d + n) % 7 →
      (_add_days_adjust_weekday d n) % 7 = 0 ∧
      _add_days_adjust_weekday d n = d + n + (7 - (d + n) % 7)) := by
  unfold _add_days_adjust_weekday
  rw [adjust_forward_eq]
  by_cases hw : (d + n) % 7 < 5
  · rw [if_pos hw]
    exact ⟨le_refl _, hw, fun x hx _ => hx, fun _ => rfl,
      fun h => absurd h (by omega)⟩
  · rw [if_neg hw]
    refine ⟨by omega, by omega, ?_, fun h => absurd h hw,
      fun _ => ⟨by omega, rfl⟩⟩
    intro x hx hxw
    omega

theorem C9_expiration_first_weekday_witness :
    _add_days_adjust_weekday 739620 30 = 739620 + 30 :=
  (C9_expiration_first_weekday 739620 30).2.2.2.1 (by decide)

/-- C10: `apply_invoice_and_expiration_dates` writes dates for at most
min(total_pages, 50) pages with the default configuration: for
total_pages ≤ 0 it returns immediately with no writes and no error, and for
positive total_pages (valid weekday range, feasible page count) it produces
exactly min(total_pages, 50) writes — silently truncating to the
max_pages = 50 cap without any error. -/
theorem C10_pages_truncation (sample : Nat → Nat → List Nat) (pick : List Nat → Nat)
    (hs : ValidSample sample) (hp : ValidPick pick) (total_pages : Int)
    (start_date end_date : Nat) :
    (total_pages ≤ 0 →
      apply_invoice_and_expiration_dates sample pick total_pages start_date end_date
        defaultInvoiceDatesConfig = .ok []) ∧
    (0 < total_pages → start_date % 7 < 5 → end_date % 7 < 5 →
      start_date ≤ end_date →
      min total_pages 50 ≤ ((3 *
        (_weekdays_in_range start_date end_date).length : Nat) : Int) →
      ∃ ws, apply_invoice_and_expiration_dates sample pick total_pages start_date
          end_date defaultInvoiceDatesConfig = .ok ws ∧
        (ws.length : Int) = min total_pages 50) := by
  constructor
  · intro h
    unfold apply_invoice_and_expiration_dates
    rw [if_pos h]
  · intro hpos hsw hew hse hfeas
    have hne : _weekdays_in_range start_date end_date ≠ [] := by
      intro h0
      have hm : start_date ∈ _weekdays_in_range start_date end_date :=
        (mem_weekdays_in_range _ _ _).mpr ⟨le_refl _, hse, hsw⟩
      rw [h0] at hm
      exact List.not_mem_nil _ hm
    have hE : (_weekdays_in_range start_date end_date).isEmpty = false := by
      cases hL : _weekdays_in_range start_date end_date with
      | nil => exact absurd hL hne
      | cons a t => rfl
    obtain ⟨out, hok, hlen, _⟩ := genSpec sample pick hs hp (min total_pages 50)
      start_date end_date 3 (by omega) hne hfeas
    unfold apply_invoice_and_expiration_dates
    rw [if_neg (by omega : ¬ total_pages ≤ 0)]
    rw [if_neg (by omega : ¬ (5 ≤ start_date % 7 ∨ 5 ≤ end_date % 7))]
    rw [if_neg (by omega : ¬ end_date < start_date)]
    have hk12 : _cell_to_col_row defaultInvoiceDatesConfig.first_page_invoice_cell
        = .ok (11, 12) := rfl
    have hk61 : _cell_to_col_row defaultInvoiceDatesConfig.second_page_invoice_cell
        = .ok (11, 61) := rfl
    have hmax : (defaultInvoiceDatesConfig.max_pages : Int) = (50 : Int) := rfl
    simp only [hk12, hk61, hmax, hE, Bool.false_eq_true, if_false]
    rw [if_neg (by omega : ¬ (61 : Nat) ≤ 12)]
    rw [hok]
    refine ⟨out.enum.map (fun p =>
      (12 + p.1 * (61 - 12), p.2,
        _add_days_adjust_weekday p.2 defaultInvoiceDatesConfig.expiration_days)), rfl, ?_⟩
    rw [List.length_map, List.enum_length]
    omega

theorem C10_pages_truncation_witness :
    (apply_invoice_and_expiration_dates sample0 pick0 (-1) 0 22
      defaultInvoiceDatesConfig = .ok []) ∧
    ∃ ws, apply_invoice_and_expiration_dates sample0 pick0 60 0 22
        defaultInvoiceDatesConfig = .ok ws ∧ (ws.length : Int) = min 60 50 :=
  ⟨(C10_pages_truncation sample0 pick0 sample0_valid pick0_valid (-1) 0 22).1
      (by decide),
   (C10_pages_truncation sample0 pick0 sample0_valid pick0_valid 60 0 22).2
      (by decide) (by decide) (by decide) (by decide) (by decide)⟩
